import Mathlib

/-!
# Verification of the data-to-pixels codec, packet framer and integrity primitives

Shallow embedding of the C++ sources `src/integrity.cpp`, `src/video_decoder.cpp`
and `src/dct_common.h` of the repository.  Bytes are modelled as `Nat` (the C++
code stores them in `std::byte` / `uint8_t`), 32-bit registers as `Nat` reduced
modulo `2 ^ 32` at every step, and `std::span<const std::byte>` as `List Nat`.
-/

namespace Integrity

/-- The CRC-32/MPEG-2 generator polynomial `0x04C11DB7`
(spec glossary: polynomial 0x04C11DB7, initial 0xFFFFFFFF, no input/output
reflection, no final XOR). -/
def CRC_POLY : Nat := 0x04C11DB7

/-- The standard initial register value of CRC-32/MPEG-2. -/
def CRC_INIT : Nat := 0xFFFFFFFF

/-- One MSB-first shift step of the CRC register. -/
def crcStepBit (r : Nat) : Nat :=
  if r.testBit 31 then ((r <<< 1) ^^^ CRC_POLY) % 2 ^ 32 else (r <<< 1) % 2 ^ 32

/-- Process one input byte into the CRC register: XOR it into the top byte,
then run eight shift steps. -/
def crcStepByte (r b : Nat) : Nat :=
  crcStepBit^[8] ((r ^^^ (b <<< 24)) % 2 ^ 32)

/-- Modelled from the spec: `CRC::Calculate(data, size, table, crc)` of the
vendored `libs/CRC.h` (not under `src/`), continuing an unreflected
CRC-32/MPEG-2 computation from register value `r` (the final XOR of the
parameter set is zero, so a previous result is resumed unchanged). -/
def crcUpdate (r : Nat) (data : List Nat) : Nat :=
  data.foldl crcStepByte r

/-- Modelled from the spec: `CRC::Calculate(data, size, CRC::CRC_32_MPEG2())`
of the vendored `libs/CRC.h` — the CRC-32/MPEG-2 of `data` started from the
standard initial register value. -/
def crcCalculate (data : List Nat) : Nat :=
  crcUpdate CRC_INIT data

/-- The four bytes of a 32-bit value in little-endian order, exactly as
`seedBytes` is built in `crc32c` (`src/integrity.cpp`, lines 39-44). -/
def leBytes (s : Nat) : List Nat :=
  [s &&& 0xFF, (s >>> 8) &&& 0xFF, (s >>> 16) &&& 0xFF, (s >>> 24) &&& 0xFF]

/-- `crc32c` of `src/integrity.cpp` (lines 37-53): for a nonzero seed, the four
little-endian seed bytes are run through the CRC first and the data continues
from the resulting register; for seed zero the plain CRC of the data. -/
def crc32c (data : List Nat) (seed : Nat) : Nat :=
  if seed ≠ 0 then
    crcUpdate (crcCalculate (leBytes seed)) data
  else
    crcCalculate data

/-- `crc32c_concat` of `src/integrity.cpp` (lines 55-64): CRC of `first`, then
continued over `second`; the seed parameter is ignored (it is named
`unused_seed` in the source). -/
def crc32c_concat (first second : List Nat) (_seed : Nat) : Nat :=
  crcUpdate (crcCalculate first) second

/-- `packet_crc32c` of `src/integrity.cpp` (lines 66-86): CRC of the first
`crc_offset` header bytes, then four zero bytes when `crc_size == 4`, then the
header bytes after the checksum field when any remain, then the payload. -/
def packet_crc32c (header payload : List Nat) (crc_offset crc_size : Nat) : Nat :=
  let c1 := crcUpdate CRC_INIT (header.take crc_offset)
  let c2 := if crc_size = 4 then crcUpdate c1 [0, 0, 0, 0] else c1
  let c3 := if crc_offset + crc_size < header.length then
      crcUpdate c2 (header.drop (crc_offset + crc_size))
    else c2
  crcUpdate c3 payload

/-- `read_u32_le` of `src/integrity.cpp` (lines 88-94): the little-endian
32-bit value formed by the four bytes at `byteOffset` when they fit in the
buffer (the `memcpy` on a little-endian host), and `0` otherwise. -/
def read_u32_le (buffer : List Nat) (byteOffset : Nat) : Nat :=
  if byteOffset + 4 ≤ buffer.length then
    buffer.getD byteOffset 0
      + 256 * buffer.getD (byteOffset + 1) 0
      + 65536 * buffer.getD (byteOffset + 2) 0
      + 16777216 * buffer.getD (byteOffset + 3) 0
  else 0

/-- `verify_packet_crc32c` of `src/integrity.cpp` (lines 96-110). -/
def verify_packet_crc32c (header payload : List Nat)
    (crc_offset crc_size : Nat) : Bool :=
  if crc_size ≠ 4 then false
  else if crc_offset + 4 > header.length then false
  else read_u32_le header crc_offset == packet_crc32c header payload crc_offset crc_size

/-- Resuming the CRC register over appended data is the same as one pass over
the concatenation. -/
theorem crcUpdate_append (r : Nat) (a b : List Nat) :
    crcUpdate r (a ++ b) = crcUpdate (crcUpdate r a) b :=
  List.foldl_append ..

/-- The empty range leaves the CRC register unchanged. -/
theorem crcUpdate_nil (r : Nat) : crcUpdate r [] = r := rfl

/-- The four-byte window of a list, written with default-valued lookups. -/
theorem drop_take_four (l : List Nat) (off : Nat) (h : off + 4 ≤ l.length) :
    (l.drop off).take 4
      = [l.getD off 0, l.getD (off + 1) 0, l.getD (off + 2) 0, l.getD (off + 3) 0] := by
  induction off generalizing l with
  | zero =>
    match l, h with
    | a :: b :: c :: d :: t, _ => rfl
  | succ n ih =>
    match l, h with
    | a :: t, h =>
      simp only [List.drop_succ_cons, Nat.succ_eq_add_one, Nat.add_right_comm _ 1,
        List.getD_cons_succ]
      exact ih t (by simp at h; omega)

/-- In range, `read_u32_le` is the base-256 little-endian value of the
four-byte window. -/
theorem read_u32_le_eq_ofDigits (buffer : List Nat) (off : Nat)
    (h : off + 4 ≤ buffer.length) :
    read_u32_le buffer off = Nat.ofDigits 256 ((buffer.drop off).take 4) := by
  rw [drop_take_four buffer off h]
  simp only [read_u32_le, if_pos h, Nat.ofDigits]
  push_cast
  ring

/-- C10: `read_u32_le` is total: in range it returns the little-endian 32-bit
value of the four bytes at `byteOffset`, and out of range it returns `0`. -/
theorem read_u32_le_total (buffer : List Nat) (byteOffset : Nat) :
    read_u32_le buffer byteOffset
      = if byteOffset + 4 ≤ buffer.length then
          Nat.ofDigits 256 ((buffer.drop byteOffset).take 4)
        else 0 := by
  by_cases h : byteOffset + 4 ≤ buffer.length
  · rw [if_pos h, read_u32_le_eq_ofDigits buffer byteOffset h]
  · rw [if_neg h, read_u32_le, if_neg h]

/-- C9: `crc32c_concat` computes the CRC-32/MPEG-2 of the concatenation of its
two byte ranges from the standard initial value, ignoring the seed argument. -/
theorem crc32c_concat_eq_crc_append (a b : List Nat) (s : Nat) :
    crc32c_concat a b s = crc32c (a ++ b) 0 := by
  simp [crc32c_concat, crc32c, crcCalculate, crcUpdate_append]

set_option maxRecDepth 8000 in
/-- C3 (counterexample): the seed-prepending identity fails at seed `0` — for
the empty input, `crc32c` with seed `0` is the bare initial register, while the
CRC of four prepended zero bytes is not. -/
theorem crc32c_seed_zero_cex :
    ¬ (crc32c [] 0 = crc32c (leBytes 0 ++ []) 0) := by decide

/-- C3 (amended): for every nonzero seed `s`,
`crc32c(data, s) = crc32c(LE(s) ++ data, 0)`; at `s = 0` the standard initial
register value is used without prepending. -/
theorem crc32c_seed_prepend (data : List Nat) (s : Nat) (hs : s ≠ 0) :
    crc32c data s = crc32c (leBytes s ++ data) 0 := by
  simp [crc32c, hs, crcCalculate, crcUpdate_append]

/-- Witness for C3 (amended) at `s = 1`, `data = [171]`. -/
theorem crc32c_seed_prepend_witness :
    (1 : Nat) ≠ 0 ∧ crc32c [171] 1 = crc32c (leBytes 1 ++ [171]) 0 :=
  ⟨by decide, crc32c_seed_prepend [171] 1 (by decide)⟩

/-- C5: for `crc_size = 4` and an in-range checksum field, `packet_crc32c` is
the CRC-32/MPEG-2 of the header with its checksum field zeroed, followed by
the payload. -/
theorem packet_crc32c_eq_crc_zeroed (header payload : List Nat) (crc_offset : Nat)
    (h : crc_offset + 4 ≤ header.length) :
    packet_crc32c header payload crc_offset 4
      = crcCalculate
          (header.take crc_offset ++ [0, 0, 0, 0]
            ++ header.drop (crc_offset + 4) ++ payload) := by
  by_cases hlt : crc_offset + 4 < header.length
  · simp only [packet_crc32c, crcCalculate, crcUpdate_append, if_pos hlt, reduceIte]
  · have hnil : header.drop (crc_offset + 4) = [] :=
      List.drop_eq_nil_of_le (by omega)
    simp only [packet_crc32c, crcCalculate, crcUpdate_append, if_neg hlt, reduceIte,
      hnil, crcUpdate_nil]

/-- Witness for C5 at a four-byte header holding its own zeroed CRC field. -/
theorem packet_crc32c_eq_crc_zeroed_witness :
    (0 : Nat) + 4 ≤ ([9, 8, 7, 6] : List Nat).length ∧
      packet_crc32c [9, 8, 7, 6] [5] 0 4
        = crcCalculate
            (List.take 0 [9, 8, 7, 6] ++ [0, 0, 0, 0]
              ++ List.drop (0 + 4) [9, 8, 7, 6] ++ [5]) :=
  ⟨by decide, packet_crc32c_eq_crc_zeroed [9, 8, 7, 6] [5] 0 (by decide)⟩

/-- C4: `verify_packet_crc32c` returns `true` exactly when `crc_size = 4`, the
checksum field fits in the header, and the little-endian 32-bit value stored
there equals `packet_crc32c`; in every other case it returns `false`. -/
theorem verify_packet_crc32c_iff (header payload : List Nat)
    (crc_offset crc_size : Nat) :
    verify_packet_crc32c header payload crc_offset crc_size = true ↔
      crc_size = 4 ∧ crc_offset + 4 ≤ header.length ∧
        Nat.ofDigits 256 ((header.drop crc_offset).take 4)
          = packet_crc32c header payload crc_offset crc_size := by
  by_cases h4 : crc_size = 4
  · subst h4
    by_cases hoff : crc_offset + 4 ≤ header.length
    · rw [verify_packet_crc32c, if_neg (by simp), if_neg (by omega),
        read_u32_le_eq_ofDigits header crc_offset hoff]
      simp [hoff]
    · rw [verify_packet_crc32c, if_neg (by simp), if_pos (by omega)]
      simp [hoff]
  · rw [verify_packet_crc32c, if_pos h4]
    simp [h4]

end Integrity

namespace Framer

/-- The candidate packet size of `VideoDecoder::extract_packets_from_frame`
(`src/video_decoder.cpp`, lines 172-178): start from the V1 size
`HEADER_SIZE + SYMBOL_SIZE_BYTES`; when the stream has at least five bytes and
byte 4 equals `VERSION_ID_V2`, use `HEADER_SIZE_V2 + SYMBOL_SIZE_BYTES`.
The constants live in `configuration.h`, which is not under `src/`, so they are
passed as parameters (`hv1`, `hv2`, `sym`, `v2`). -/
def packetSize (hv1 hv2 sym v2 : Nat) (raw : List Nat) : Nat :=
  match raw[4]? with
  | some ver => if ver = v2 then hv2 + sym else hv1 + sym
  | none => hv1 + sym

/-- The packet-walking loop of `VideoDecoder::extract_packets_from_frame`
(`src/video_decoder.cpp`, lines 179-194): while a whole packet fits at
`offset`, stop if four bytes fit there and they are not the little-endian
`MAGIC_ID`, otherwise emit the `ps`-byte slice and advance by `ps`.  The C++
`while` is driven here by `fuel`; `extract_packets_from_frame` passes
`raw.length`, which bounds the iteration count of the source loop for every
positive packet size (packet sizes are sums of positive header and symbol
sizes). -/
def framerLoop (magic ps : Nat) (raw : List Nat) : Nat → Nat → List (List Nat)
  | 0, _ => []
  | fuel + 1, offset =>
    if offset + ps ≤ raw.length then
      if offset + 4 ≤ raw.length ∧ Integrity.read_u32_le raw offset ≠ magic then []
      else (raw.drop offset).take ps :: framerLoop magic ps raw fuel (offset + ps)
    else []

/-- `VideoDecoder::extract_packets_from_frame` (`src/video_decoder.cpp`,
lines 168-197), applied to an already-extracted byte stream `raw`. -/
def extract_packets_from_frame (magic hv1 hv2 sym v2 : Nat)
    (raw : List Nat) : List (List Nat) :=
  framerLoop magic (packetSize hv1 hv2 sym v2 raw) raw raw.length 0

/-- The walking loop recovers exactly the aligned packets: if the bytes from
`offset` on are `n` packets of length `ps` each starting with the magic,
followed by trailing bytes that are shorter than a packet or do not start with
the magic, the loop returns exactly those packets. -/
theorem framerLoop_spec (magic ps : Nat) (hps : 4 ≤ ps) (trailing : List Nat)
    (htr : trailing.length < ps ∨ Integrity.read_u32_le trailing 0 ≠ magic) :
    ∀ (pkts : List (List Nat)) (fuel offset : Nat) (raw : List Nat),
      (∀ p ∈ pkts, p.length = ps ∧ Integrity.read_u32_le p 0 = magic) →
      raw.drop offset = pkts.flatten ++ trailing →
      offset ≤ raw.length →
      pkts.length ≤ fuel →
      framerLoop magic ps raw fuel offset = pkts := by
  intro pkts
  induction pkts with
  | nil =>
    intro fuel offset raw _ hdrop hoff _
    have hlen : raw.length - offset = trailing.length := by
      have := congrArg List.length hdrop
      simpa using this
    cases fuel with
    | zero => rfl
    | succ n =>
      rw [framerLoop]
      by_cases hc : offset + ps ≤ raw.length
      · have h4 : offset + 4 ≤ raw.length := by omega
        have hm : Integrity.read_u32_le raw offset ≠ magic := by
          rcases htr with h | h
          · omega
          · rw [Integrity.read_u32_le_eq_ofDigits raw offset h4]
            simp only [hdrop, List.flatten_nil, List.nil_append]
            rw [Integrity.read_u32_le_eq_ofDigits trailing 0 (by omega)] at h
            simpa using h
        simp [hc, h4, hm]
      · simp [hc]
  | cons pkt rest ih =>
    intro fuel offset raw hpk hdrop hoff hfuel
    obtain ⟨hplen, hpmagic⟩ := hpk pkt (by simp)
    have hdo : raw.drop offset = pkt ++ (rest.flatten ++ trailing) := by
      simpa using hdrop
    have hlen : raw.length - offset = ps + (rest.flatten ++ trailing).length := by
      have := congrArg List.length hdo
      simpa [hplen] using this
    cases fuel with
    | zero => simp at hfuel
    | succ n =>
      rw [framerLoop]
      have hc : offset + ps ≤ raw.length := by omega
      have h4 : offset + 4 ≤ raw.length := by omega
      have hm : Integrity.read_u32_le raw offset = magic := by
        rw [Integrity.read_u32_le_eq_ofDigits raw offset h4, hdo,
          List.take_append_of_le_length (by omega),
          ← List.drop_zero pkt,
          ← Integrity.read_u32_le_eq_ofDigits pkt 0 (by omega)]
        exact hpmagic
      have htake : (raw.drop offset).take ps = pkt := by
        rw [hdo, ← hplen, List.take_left]
      have hdropnext : raw.drop (offset + ps) = rest.flatten ++ trailing := by
        rw [← List.drop_drop, hdo, ← hplen, List.drop_left]
      rw [if_pos hc, if_neg (by simp [hm]), htake,
        ih n (offset + ps) raw (fun p hp => hpk p (by simp [hp])) hdropnext
          (by omega) (by simpa using hfuel)]

/-- Packets of length `ps ≥ 4` each make the flattened stream at least as long
as the packet count, so `raw.length` is enough fuel. -/
theorem length_le_flatten_length (ps : Nat) (hps : 4 ≤ ps)
    (pkts : List (List Nat)) (hpk : ∀ p ∈ pkts, p.length = ps) :
    pkts.length ≤ pkts.flatten.length := by
  induction pkts with
  | nil => simp
  | cons pkt rest ih =>
    have h1 := hpk pkt (by simp)
    have h2 := ih (fun p hp => hpk p (by simp [hp]))
    simp only [List.flatten_cons, List.length_append, List.length_cons]
    omega

/-- C2: on a stream that is `n` aligned packets (each of the framer's packet
size, each starting with the little-endian magic) followed by trailing bytes
that are shorter than a packet or do not start with the magic,
`extract_packets_from_frame` returns exactly those `n` packets in order. -/
theorem extract_packets_aligned (magic hv1 hv2 sym v2 ps : Nat)
    (pkts : List (List Nat)) (trailing raw : List Nat)
    (hraw : raw = pkts.flatten ++ trailing)
    (hps : ps = packetSize hv1 hv2 sym v2 raw)
    (hps4 : 4 ≤ ps)
    (hpk : ∀ p ∈ pkts, p.length = ps ∧ Integrity.read_u32_le p 0 = magic)
    (htr : trailing.length < ps ∨ Integrity.read_u32_le trailing 0 ≠ magic) :
    extract_packets_from_frame magic hv1 hv2 sym v2 raw = pkts := by
  rw [extract_packets_from_frame, ← hps]
  apply framerLoop_spec magic ps hps4 trailing htr pkts raw.length 0 raw hpk
    (by simpa using hraw.symm ▸ rfl) (Nat.zero_le _)
  have := length_le_flatten_length ps hps4 pkts (fun p hp => (hpk p hp).1)
  have hlen : raw.length = pkts.flatten.length + trailing.length := by
    rw [hraw]; simp
  omega

/-- Witness for C2: two five-byte packets with magic `0x01020304`, a one-byte
tail, V1 header size 1, symbol size 4. -/
theorem extract_packets_aligned_witness :
    (4 : Nat) ≤ 5 ∧
      extract_packets_from_frame 16909060 1 9 4 2 [4, 3, 2, 1, 7, 4, 3, 2, 1, 7, 9]
        = [[4, 3, 2, 1, 7], [4, 3, 2, 1, 7]] :=
  ⟨by decide,
    extract_packets_aligned 16909060 1 9 4 2 5
      [[4, 3, 2, 1, 7], [4, 3, 2, 1, 7]] [9] [4, 3, 2, 1, 7, 4, 3, 2, 1, 7, 9]
      (by decide) (by decide) (by decide) (by decide) (by decide)⟩

/-- C7: the framer's packet size is the V2 size exactly when the stream has at
least five bytes and byte 4 is `VERSION_ID_V2`; in every other case (short
stream or any other version value) it is the V1 size. -/
theorem packetSize_cases (hv1 hv2 sym v2 : Nat) (raw : List Nat) :
    (raw.length < 5 → packetSize hv1 hv2 sym v2 raw = hv1 + sym) ∧
      (5 ≤ raw.length →
        (raw.getD 4 0 = v2 → packetSize hv1 hv2 sym v2 raw = hv2 + sym) ∧
        (raw.getD 4 0 ≠ v2 → packetSize hv1 hv2 sym v2 raw = hv1 + sym)) := by
  constructor
  · intro h
    rw [packetSize, List.getElem?_eq_none (by omega)]
  · intro h5
    have h4 : 4 < raw.length := by omega
    rw [packetSize, List.getElem?_eq_getElem h4, List.getD_eq_getElem raw 0 h4]
    constructor <;> intro hv <;> simp [hv]

/-- Witness for C7: the three cases at concrete streams (short; V2 byte;
unknown version byte). -/
theorem packetSize_cases_witness :
    packetSize 6 9 10 2 [1, 1, 1, 1] = 16 ∧
      packetSize 6 9 10 2 [1, 1, 1, 1, 2] = 19 ∧
      packetSize 6 9 10 2 [1, 1, 1, 1, 7] = 16 :=
  ⟨(packetSize_cases 6 9 10 2 [1, 1, 1, 1]).1 (by decide),
    ((packetSize_cases 6 9 10 2 [1, 1, 1, 1, 2]).2 (by decide)).1 (by decide),
    ((packetSize_cases 6 9 10 2 [1, 1, 1, 1, 7]).2 (by decide)).2 (by decide)⟩

end Framer

namespace Dct

/-!
The tables of `src/dct_common.h` are built in C++ from 32-bit floats and
`std::cos`.  The embedding keeps every formula of the source over exact
rationals and treats the cosine table — whose float values depend on the
platform libm — as a parameter `c : Nat → Nat → ℚ`; the structural properties
proved below hold for every table.
-/

/-- Modelled from the spec: `BITS_PER_BLOCK` of the absent `configuration.h`;
the reference value is 4, matching the fixed size-4 arrays
`embed_basis[4][8][8]` and `vectors[4][64]` of `dct_common.h`. -/
def BITS_PER_BLOCK : Nat := 4

/-- `EMBED_POSITIONS` of `src/dct_common.h` (lines 12-17). -/
def EMBED_POSITIONS : List (Nat × Nat) := [(0, 1), (1, 0), (1, 1), (0, 2)]

/-- The `(u, v)` coefficient position of basis index `b`. -/
def embedPos (b : Nat) : Nat × Nat := EMBED_POSITIONS.getD b (0, 0)

/-- `alpha_f` of `src/dct_common.h` (lines 37-39); the source's float literal
`0.70710678118654752f` is kept as the exact value of the 32-bit float it
denotes, `11863283 / 2^24`. -/
def alpha_f (u : Nat) : ℚ := if u = 0 then 11863283 / 16777216 else 1

/-- `dc_value` of `get_precomputed_blocks` (`src/dct_common.h`, line 51). -/
def dc_value : ℚ := 0.25 * alpha_f 0 * alpha_f 0 * 64 * 128

/-- `dc_image` of `get_precomputed_blocks` (`src/dct_common.h`, lines 53-59),
over the cosine table `c`. -/
def dc_image (c : Nat → Nat → ℚ) (x y : Nat) : ℚ :=
  0.25 * alpha_f 0 * alpha_f 0 * dc_value * c x 0 * c y 0

/-- `embed_basis` of `get_precomputed_blocks` (`src/dct_common.h`,
lines 61-71), over the cosine table `c` and coefficient strength `S`. -/
def embed_basis (c : Nat → Nat → ℚ) (S : ℚ) (b x y : Nat) : ℚ :=
  0.25 * alpha_f (embedPos b).1 * alpha_f (embedPos b).2 * S
    * c x (embedPos b).1 * c y (embedPos b).2

/-- The bit selected for basis index `b`:
`(pattern >> (BITS_PER_BLOCK - 1 - b)) & 1` (`src/dct_common.h`, line 78). -/
def patternBit (pattern b : Nat) : Nat :=
  (pattern >>> (BITS_PER_BLOCK - 1 - b)) &&& 1

/-- The signed accumulation of `get_precomputed_blocks`
(`src/dct_common.h`, lines 76-80): start from the DC image and add or subtract
each basis image according to the selected bit. -/
def blockVal (c : Nat → Nat → ℚ) (S : ℚ) (pattern y x : Nat) : ℚ :=
  (List.range BITS_PER_BLOCK).foldl
    (fun val b =>
      val + (if patternBit pattern b = 1 then (1 : ℚ) else -1) * embed_basis c S b y x)
    (dc_image c y x)

/-- `std::clamp(val, 0.0f, 255.0f)` (`src/dct_common.h`, line 81). -/
def clampQ (v : ℚ) : ℚ := if v < 0 then 0 else if 255 < v then 255 else v

/-- `static_cast<uint8_t>` of a clamped non-negative value
(`src/dct_common.h`, line 82): truncation toward zero. -/
def toByteTrunc (v : ℚ) : Nat := (⌊v⌋).toNat

/-- Entry `[pattern][y][x]` of the pattern table built by
`get_precomputed_blocks` (`src/dct_common.h`, lines 73-85). -/
def precomputedBlock (c : Nat → Nat → ℚ) (S : ℚ) (pattern y x : Nat) : Nat :=
  toByteTrunc (clampQ (blockVal c S pattern y x))

/-- The source's shift-and-mask bit selection agrees with `Nat.testBit` at
position `BITS_PER_BLOCK - 1 - b`. -/
theorem patternBit_eq_testBit (pattern b : Nat) :
    (patternBit pattern b = 1) = pattern.testBit (BITS_PER_BLOCK - 1 - b) := by
  simp only [patternBit, Nat.and_one_is_mod, Nat.testBit_to_div_mod,
    Nat.shiftRight_eq_div_pow]
  by_cases h : pattern / 2 ^ (BITS_PER_BLOCK - 1 - b) % 2 = 1 <;> simp [h]

/-- The accumulation loop computes the DC image plus the signed sum of the
basis images. -/
theorem blockVal_eq_sum (c : Nat → Nat → ℚ) (S : ℚ) (pattern y x : Nat) :
    blockVal c S pattern y x
      = dc_image c y x
          + ∑ b ∈ Finset.range BITS_PER_BLOCK,
              (if pattern.testBit (BITS_PER_BLOCK - 1 - b) then (1 : ℚ) else -1)
                * embed_basis c S b y x := by
  simp only [blockVal, patternBit_eq_testBit, BITS_PER_BLOCK]
  rw [show List.range 4 = [0, 1, 2, 3] from rfl]
  simp [Finset.sum_range_succ, List.foldl]
  ring

/-- C6: every pattern-table entry is the truncation after clamping to
`[0, 255]` of the DC image plus the MSB-first signed sum of the embedding
basis images (pattern bit `B-1-b` with sign `+1` when set drives basis `b`),
and consequently every byte of the table lies in `[0, 255]`. -/
theorem precomputedBlock_spec (c : Nat → Nat → ℚ) (S : ℚ) (pattern y x : Nat)
    (hp : pattern < 2 ^ BITS_PER_BLOCK) :
    precomputedBlock c S pattern y x
        = toByteTrunc (clampQ
            (dc_image c y x
              + ∑ b ∈ Finset.range BITS_PER_BLOCK,
                  (if pattern.testBit (BITS_PER_BLOCK - 1 - b) then (1 : ℚ) else -1)
                    * embed_basis c S b y x))
      ∧ precomputedBlock c S pattern y x ≤ 255 := by
  constructor
  · rw [precomputedBlock, blockVal_eq_sum]
  · have hcl : clampQ (blockVal c S pattern y x) ≤ 255 := by
      unfold clampQ
      split
      · norm_num
      · split
        · norm_num
        · exact le_of_not_lt (by assumption)
    have hfl : (⌊clampQ (blockVal c S pattern y x)⌋ : ℤ) ≤ 255 := by
      have := Int.floor_le_floor hcl
      simpa using this
    have : (⌊clampQ (blockVal c S pattern y x)⌋).toNat ≤ 255 :=
      Int.toNat_le.mpr (by exact_mod_cast hfl)
    simpa [precomputedBlock, toByteTrunc] using this

/-- Witness for C6 at the all-ones table, strength 1, pattern 5. -/
theorem precomputedBlock_spec_witness :
    (5 : Nat) < 2 ^ BITS_PER_BLOCK ∧
      (precomputedBlock (fun _ _ => 1) 1 5 0 0
          = toByteTrunc (clampQ
              ((dc_image (fun _ _ => 1) 0 0
                + ∑ b ∈ Finset.range BITS_PER_BLOCK,
                    (if (5 : Nat).testBit (BITS_PER_BLOCK - 1 - b) then (1 : ℚ) else -1)
                      * embed_basis (fun _ _ => 1) 1 b 0 0)))
        ∧ precomputedBlock (fun _ _ => 1) 1 5 0 0 ≤ 255) :=
  ⟨by decide, precomputedBlock_spec (fun _ _ => 1) 1 5 0 0 (by decide)⟩

/-- `get_decoder_projections` of `src/dct_common.h` (lines 96-111):
`vectors[b][x*8 + y] = c[x][u_b] * c[y][v_b]`, read here at flat index `k`
with `x = k / 8`, `y = k % 8`. -/
def proj (c : Nat → Nat → ℚ) (b k : Nat) : ℚ :=
  c (k / 8) (embedPos b).1 * c (k % 8) (embedPos b).2

/-- The flattened 8×8 tile read by `extract_data_from_frame`
(`src/video_decoder.cpp`, lines 149-154): `block_flat[y*8 + x]` is the sample
at row `base_y + y`, column `base_x + x`, converted to float as-is. -/
def blockFlat (frame : Nat → Nat → Nat) (baseY baseX k : Nat) : ℚ :=
  (frame (baseY + k / 8) (baseX + k % 8) : ℚ)

/-- `dot_product_64` over flat 64-vectors. -/
def dot_product_64 (f g : Nat → ℚ) : ℚ :=
  ∑ k ∈ Finset.range 64, f k * g k

/-- The per-byte loop body of `VideoDecoder::extract_data_from_frame`
(`src/video_decoder.cpp`, lines 139-163): for each of the `8/B` sub-blocks of
byte `byteIdx`, project the tile onto the `B` decoder vectors and shift the
thresholded bits into the byte, most significant first. -/
def extractByte (c : Nat → Nat → ℚ) (frame : Nat → Nat → Nat)
    (blocksPerRow byteIdx : Nat) : Nat :=
  (List.range (8 / BITS_PER_BLOCK)).foldl
    (fun cur sub =>
      let blockIdx := byteIdx * (8 / BITS_PER_BLOCK) + sub
      let baseX := blockIdx % blocksPerRow * 8
      let baseY := blockIdx / blocksPerRow * 8
      (List.range BITS_PER_BLOCK).foldl
        (fun cb b =>
          (cb <<< 1) |||
            (if 0 < dot_product_64 (blockFlat frame baseY baseX) (proj c b) then 1 else 0))
        cur)
    0

/-- `VideoDecoder::extract_data_from_frame` (`src/video_decoder.cpp`,
lines 117-166): one output byte per `8/B` consecutive blocks in raster
order. -/
def extract_data_from_frame (c : Nat → Nat → ℚ) (frame : Nat → Nat → Nat)
    (blocksPerRow totalBlocks : Nat) : List Nat :=
  (List.range (totalBlocks / (8 / BITS_PER_BLOCK))).map (extractByte c frame blocksPerRow)

/-- C8: decoding is invariant under a uniform luminance shift that stays in
`[0, 255]`, because each decoder projection vector has zero sum (is orthogonal
to the constant/DC subspace). -/
theorem extract_shift_invariant (c : Nat → Nat → ℚ) (frame : Nat → Nat → Nat)
    (blocksPerRow totalBlocks sh : Nat)
    (hz : ∀ b < BITS_PER_BLOCK, ∑ k ∈ Finset.range 64, proj c b k = 0)
    (hrange : ∀ y x, frame y x + sh ≤ 255) :
    extract_data_from_frame c (fun y x => frame y x + sh) blocksPerRow totalBlocks
      = extract_data_from_frame c frame blocksPerRow totalBlocks := by
  have hdot : ∀ b, b < BITS_PER_BLOCK → ∀ baseY baseX,
      dot_product_64 (blockFlat (fun y x => frame y x + sh) baseY baseX) (proj c b)
        = dot_product_64 (blockFlat frame baseY baseX) (proj c b) := by
    intro b hb baseY baseX
    unfold dot_product_64 blockFlat
    have hterm : ∀ k, ((frame (baseY + k / 8) (baseX + k % 8) + sh : Nat) : ℚ) * proj c b k
        = (frame (baseY + k / 8) (baseX + k % 8) : ℚ) * proj c b k + (sh : ℚ) * proj c b k := by
      intro k; push_cast; ring
    rw [Finset.sum_congr rfl (fun k _ => hterm k), Finset.sum_add_distrib,
      ← Finset.mul_sum, hz b hb, mul_zero, add_zero]
  have h0 := hdot 0 (by decide)
  have h1 := hdot 1 (by decide)
  have h2 := hdot 2 (by decide)
  have h3 := hdot 3 (by decide)
  unfold extract_data_from_frame
  refine List.map_congr_left fun byteIdx _ => ?_
  simp only [extractByte, show List.range (8 / BITS_PER_BLOCK) = [0, 1] from rfl,
    show List.range BITS_PER_BLOCK = [0, 1, 2, 3] from rfl, List.foldl,
    h0, h1, h2, h3]

/-- Witness for C8: a table whose used columns sum to zero, a constant frame
at luminance 100, shift 3, two blocks in one block-row. -/
theorem extract_shift_invariant_witness :
    (∀ b < BITS_PER_BLOCK,
      ∑ k ∈ Finset.range 64,
        proj (fun i u => if u = 0 then 1 else if i < 4 then 1 else -1) b k = 0) ∧
    (∀ y x : Nat, (fun _ _ => 100 : Nat → Nat → Nat) y x + 3 ≤ 255) ∧
      extract_data_from_frame (fun i u => if u = 0 then 1 else if i < 4 then 1 else -1)
          (fun y x => (fun _ _ => 100 : Nat → Nat → Nat) y x + 3) 1 2
        = extract_data_from_frame (fun i u => if u = 0 then 1 else if i < 4 then 1 else -1)
            (fun _ _ => 100) 1 2 := by
  have hz : ∀ b < BITS_PER_BLOCK,
      ∑ k ∈ Finset.range 64,
        proj (fun i u => if u = 0 then 1 else if i < 4 then 1 else -1) b k = 0 := by
    intro b hb
    have hb4 : b < 4 := hb
    interval_cases b <;>
      simp [proj, embedPos, EMBED_POSITIONS, Finset.sum_range_succ]
  exact ⟨hz, fun y x => by norm_num,
    extract_shift_invariant (fun i u => if u = 0 then 1 else if i < 4 then 1 else -1)
      (fun _ _ => 100) 1 2 3 hz (fun y x => by norm_num)⟩

/-- Modelled from the spec: the cosine table of `get_cosine_table`
(`src/dct_common.h`, lines 23-35) holds `cos((2i+1)·j·π/16)` rounded to 32-bit
floats by the platform libm; each entry is the exact dyadic value of that
float, scaled here by `2^25`. -/
def cosNum : Nat → Nat → Int
  | 0, 0 => 33554432
  | 0, 1 => 32909692
  | 0, 2 => 31000252
  | 0, 3 => 27899490
  | 0, 4 => 23726566
  | 0, 5 => 18641844
  | 0, 6 => 12840725
  | 0, 7 => 6546145
  | 1, 0 => 33554432
  | 1, 1 => 27899490
  | 1, 2 => 12840725
  | 1, 3 => -6546145
  | 1, 4 => -23726566
  | 1, 5 => -32909692
  | 1, 6 => -31000252
  | 1, 7 => -18641844
  | 2, 0 => 33554432
  | 2, 1 => 18641844
  | 2, 2 => -12840725
  | 2, 3 => -32909692
  | 2, 4 => -23726566
  | 2, 5 => 6546145
  | 2, 6 => 31000252
  | 2, 7 => 27899490
  | 3, 0 => 33554432
  | 3, 1 => 6546145
  | 3, 2 => -31000252
  | 3, 3 => -18641844
  | 3, 4 => 23726566
  | 3, 5 => 27899490
  | 3, 6 => -12840725
  | 3, 7 => -32909692
  | 4, 0 => 33554432
  | 4, 1 => -6546145
  | 4, 2 => -31000252
  | 4, 3 => 18641844
  | 4, 4 => 23726566
  | 4, 5 => -27899490
  | 4, 6 => -12840725
  | 4, 7 => 32909692
  | 5, 0 => 33554432
  | 5, 1 => -18641844
  | 5, 2 => -12840725
  | 5, 3 => 32909692
  | 5, 4 => -23726566
  | 5, 5 => -6546145
  | 5, 6 => 31000252
  | 5, 7 => -27899490
  | 6, 0 => 33554432
  | 6, 1 => -27899490
  | 6, 2 => 12840725
  | 6, 3 => 6546145
  | 6, 4 => -23726566
  | 6, 5 => 32909692
  | 6, 6 => -31000252
  | 6, 7 => 18641844
  | 7, 0 => 33554432
  | 7, 1 => -32909692
  | 7, 2 => 31000252
  | 7, 3 => -27899490
  | 7, 4 => 23726566
  | 7, 5 => -18641844
  | 7, 6 => 12840725
  | 7, 7 => -6546145
  | _, _ => 0

/-- The modelled cosine table as exact rationals. -/
def cosF32 (i j : Nat) : ℚ := (cosNum i j : ℚ) / 33554432

/-- Modelled from the spec: `COEFFICIENT_STRENGTH` of the absent
`configuration.h`; the spec leaves the strength deployment-defined and
positive, 8 is taken as the reference value. -/
def S_REF : ℚ := 8

/-- The flattening `block_flat[y*8 + x] = block[y][x]` used on a single block
(`src/video_decoder.cpp`, lines 150-154), with `y = k / 8`, `x = k % 8`. -/
def flatSample (blk : Nat → Nat → Nat) (k : Nat) : ℚ := (blk (k / 8) (k % 8) : ℚ)

/-- The per-block bit loop of `extract_data_from_frame`
(`src/video_decoder.cpp`, lines 156-159): shift in one thresholded projection
per basis index, most significant bit first. -/
def extractBits (c : Nat → Nat → ℚ) (f : Nat → ℚ) : Nat :=
  (List.range BITS_PER_BLOCK).foldl
    (fun cb b =>
      (cb <<< 1) ||| (if 0 < dot_product_64 f (proj c b) then 1 else 0))
    0

/-- The block extractor: flatten an 8×8 byte block and run the bit loop. -/
def extractBlock (c : Nat → Nat → ℚ) (blk : Nat → Nat → Nat) : Nat :=
  extractBits c (flatSample blk)

/-- `blockVal` over the modelled table, rescaled by `2^137` so that every
quantity is an integer (the table entries carry `2^25`, `alpha_f 0` carries
`11863283 / 2^24`). -/
def blockValZ (f : Nat → Nat → Int) (pattern y x : Nat) : Int :=
  11863283 ^ 4 * f y 0 * f x 0
    + (if pattern.testBit 3 then 1 else -1) * (2 ^ 64 * 11863283 * (f y 0 * f x 1))
    + (if pattern.testBit 2 then 1 else -1) * (2 ^ 64 * 11863283 * (f y 1 * f x 0))
    + (if pattern.testBit 1 then 1 else -1) * (2 ^ 88 * (f y 1 * f x 1))
    + (if pattern.testBit 0 then 1 else -1) * (2 ^ 64 * 11863283 * (f y 0 * f x 2))

/-- The pattern-table byte over the rescaled integers: clamp `blockValZ` to
`[0, 255 · 2^137]` and shift out the scale. -/
def byteZ (f : Nat → Nat → Int) (pattern y x : Nat) : Int :=
  if blockValZ f pattern y x < 0 then 0
  else if 255 * 2 ^ 137 < blockValZ f pattern y x then 255
  else blockValZ f pattern y x / 2 ^ 137

/-- The decoder projection sum over the rescaled integers (scale `2^50`). -/
def dotZ (blk : Nat → Nat → Nat) (f : Nat → Nat → Int) (b : Nat) : Int :=
  ∑ k ∈ Finset.range 64,
    (blk (k / 8) (k % 8) : Int) * f (k / 8) (embedPos b).1 * f (k % 8) (embedPos b).2

/-- The whole block round-trip over the rescaled integers: synthesise the
block bytes for `p`, project, threshold, and repack the bits. -/
def extractZ (p : Nat) : Nat :=
  (List.range BITS_PER_BLOCK).foldl
    (fun cb b =>
      (cb <<< 1) |||
        (if 0 < dotZ (fun y x => (byteZ cosNum p y x).toNat) cosNum b then 1 else 0))
    0

/-- `blockVal` written with the four signed basis contributions spelled
out. -/
theorem blockVal_eval (c : Nat → Nat → ℚ) (S : ℚ) (pattern y x : Nat) :
    blockVal c S pattern y x
      = dc_image c y x
          + (if pattern.testBit 3 then (1 : ℚ) else -1) * embed_basis c S 0 y x
          + (if pattern.testBit 2 then (1 : ℚ) else -1) * embed_basis c S 1 y x
          + (if pattern.testBit 1 then (1 : ℚ) else -1) * embed_basis c S 2 y x
          + (if pattern.testBit 0 then (1 : ℚ) else -1) * embed_basis c S 3 y x := by
  rw [blockVal_eq_sum]
  simp [BITS_PER_BLOCK, Finset.sum_range_succ]
  ring

/-- `embed_basis` at basis index 0, positions unfolded. -/
theorem embed_basis_eval_0 (c : Nat → Nat → ℚ) (S : ℚ) (x y : Nat) :
    embed_basis c S 0 x y = 0.25 * alpha_f 0 * alpha_f 1 * S * c x 0 * c y 1 := rfl

/-- `embed_basis` at basis index 1, positions unfolded. -/
theorem embed_basis_eval_1 (c : Nat → Nat → ℚ) (S : ℚ) (x y : Nat) :
    embed_basis c S 1 x y = 0.25 * alpha_f 1 * alpha_f 0 * S * c x 1 * c y 0 := rfl

/-- `embed_basis` at basis index 2, positions unfolded. -/
theorem embed_basis_eval_2 (c : Nat → Nat → ℚ) (S : ℚ) (x y : Nat) :
    embed_basis c S 2 x y = 0.25 * alpha_f 1 * alpha_f 1 * S * c x 1 * c y 1 := rfl

/-- `embed_basis` at basis index 3, positions unfolded. -/
theorem embed_basis_eval_3 (c : Nat → Nat → ℚ) (S : ℚ) (x y : Nat) :
    embed_basis c S 3 x y = 0.25 * alpha_f 0 * alpha_f 2 * S * c x 0 * c y 2 := rfl

/-- The modelled block value is the rescaled integer value over `2^137`. -/
theorem blockVal_scaled (p y x : Nat) :
    blockVal cosF32 S_REF p y x = ((blockValZ cosNum p y x : Int) : ℚ) / 2 ^ 137 := by
  rw [blockVal_eval, blockValZ, dc_image, dc_value,
    embed_basis_eval_0, embed_basis_eval_1, embed_basis_eval_2, embed_basis_eval_3]
  simp only [cosF32, alpha_f, S_REF, reduceIte]
  by_cases h3 : p.testBit 3 <;> by_cases h2 : p.testBit 2 <;>
    by_cases h1 : p.testBit 1 <;> by_cases h0 : p.testBit 0 <;>
      simp only [h3, h2, h1, h0, if_true, if_false] <;>
        (push_cast; ring)

set_option maxRecDepth 8000 in
/-- The modelled pattern-table byte is the rescaled integer byte. -/
theorem byte_scaled (p y x : Nat) :
    precomputedBlock cosF32 S_REF p y x = (byteZ cosNum p y x).toNat := by
  rw [precomputedBlock, blockVal_scaled, byteZ, clampQ, toByteTrunc]
  have hpos : (0 : ℚ) < 2 ^ 137 := by positivity
  by_cases hneg : blockValZ cosNum p y x < 0
  · have hq : ((blockValZ cosNum p y x : Int) : ℚ) / 2 ^ 137 < 0 := by
      rw [div_lt_iff₀ hpos, zero_mul]
      exact_mod_cast hneg
    rw [if_pos hq, if_pos hneg]
    simp
  · have hq : ¬ ((blockValZ cosNum p y x : Int) : ℚ) / 2 ^ 137 < 0 := by
      rw [div_lt_iff₀ hpos, zero_mul]
      exact_mod_cast hneg
    rw [if_neg hq, if_neg hneg]
    by_cases hsat : 255 * 2 ^ 137 < blockValZ cosNum p y x
    · have hq2 : (255 : ℚ) < ((blockValZ cosNum p y x : Int) : ℚ) / 2 ^ 137 := by
        rw [lt_div_iff₀ hpos]
        exact_mod_cast hsat
      rw [if_pos hq2, if_pos hsat]
      simp
    · have hq2 : ¬ (255 : ℚ) < ((blockValZ cosNum p y x : Int) : ℚ) / 2 ^ 137 := by
        rw [lt_div_iff₀ hpos]
        exact_mod_cast hsat
      rw [if_neg hq2, if_neg hsat,
        show ((2 : ℚ) ^ 137) = ((2 ^ 137 : ℕ) : ℚ) by push_cast; ring,
        Rat.floor_intCast_div_natCast]
      push_cast
      rfl

/-- Projection sums only see the block through its pointwise bytes. -/
theorem dot_flatSample_congr (blk1 blk2 : Nat → Nat → Nat) (g : Nat → ℚ)
    (h : ∀ y x, blk1 y x = blk2 y x) :
    dot_product_64 (flatSample blk1) g = dot_product_64 (flatSample blk2) g := by
  unfold dot_product_64 flatSample
  exact Finset.sum_congr rfl (fun k _ => by rw [h])

/-- The modelled projection sum is the rescaled integer sum over `2^50`. -/
theorem dot_scaled (blk : Nat → Nat → Nat) (b : Nat) :
    dot_product_64 (flatSample blk) (proj cosF32 b)
      = ((dotZ blk cosNum b : Int) : ℚ) / 2 ^ 50 := by
  rw [dot_product_64, dotZ]
  push_cast
  rw [Finset.sum_div]
  exact Finset.sum_congr rfl fun k _ => by rw [flatSample, proj, cosF32, cosF32]; push_cast; ring

/-- The full modelled block round-trip agrees with its integer mirror. -/
theorem roundtrip_compute (p : Nat) :
    extractBlock cosF32 (precomputedBlock cosF32 S_REF p) = extractZ p := by
  have hsign : ∀ b : Nat,
      (0 < dot_product_64 (flatSample (precomputedBlock cosF32 S_REF p)) (proj cosF32 b))
        = (0 < dotZ (fun y x => (byteZ cosNum p y x).toNat) cosNum b) := by
    intro b
    rw [dot_flatSample_congr _ (fun y x => (byteZ cosNum p y x).toNat) _
      (fun y x => byte_scaled p y x), dot_scaled]
    apply propext
    rw [lt_div_iff₀ (by positivity), zero_mul]
    exact_mod_cast Iff.rfl
  rw [extractBlock, extractZ, extractBits]
  simp only [hsign]

set_option maxRecDepth 16000 in
set_option maxHeartbeats 1000000 in
/-- C1: extracting the bits from the synthesised block recovers the pattern —
over the modelled table and strength, the block extractor applied to the
pattern-table entry of every `p < 2^B` returns exactly `p`. -/
theorem extract_precomputed_roundtrip (p : Nat) (hp : p < 2 ^ BITS_PER_BLOCK) :
    extractBlock cosF32 (precomputedBlock cosF32 S_REF p) = p := by
  rw [roundtrip_compute]
  exact (by decide : ∀ q, q < 16 → extractZ q = q) p hp

set_option maxRecDepth 16000 in
set_option maxHeartbeats 1000000 in
/-- Witness for C1 at pattern 3. -/
theorem extract_precomputed_roundtrip_witness :
    (3 : Nat) < 2 ^ BITS_PER_BLOCK ∧
      extractBlock cosF32 (precomputedBlock cosF32 S_REF 3) = 3 :=
  ⟨by decide, extract_precomputed_roundtrip 3 (by decide)⟩

end Dct
